import Mathlib

/-!
Verification of the in-memory pub/sub resource store (`DataStore` from the
TypeScript source).  The store keeps an association of resource names to
resource values, a registration-ordered list of watch callbacks, and per-name
watch reference counts.  We embed the store shallowly: JS objects become
association lists, JS `Set`s become lists in insertion order, and callback
invocations become explicit event traces returned by each operation.
-/

set_option maxHeartbeats 1000000

namespace FlynnStore

/-- Association-list lookup, mirroring JS object property read `o[k]`. -/
def alookup {β : Type} (k : String) : List (String × β) → Option β
  | [] => none
  | (k', v) :: rest => if k' = k then some v else alookup k rest

/-- Association-list write, mirroring JS object property write `o[k] = v`:
an existing key is updated in place, a new key is appended. -/
def aset {β : Type} (k : String) (v : β) : List (String × β) → List (String × β)
  | [] => [(k, v)]
  | (k', v') :: rest => if k' = k then (k, v) :: rest else (k', v') :: aset k v rest

/-- Association-list delete, mirroring JS `delete o[k]`: every binding of the
key is dropped (JS object keys are unique, and `aset` keeps them unique, so
this coincides with removing the one binding). -/
def adel {β : Type} (k : String) (w : List (String × β)) : List (String × β) :=
  w.filter (fun kv => kv.1 ≠ k)

/-- Distinct elements in first-occurrence order, mirroring the JS idiom
`Array.from(new Set(xs))` used by `watch` for its name set. -/
def setList : List String → List String
  | [] => []
  | a :: rest => a :: (setList rest).filter (fun b => b ≠ a)

/-- Helper for `splitSlash`: accumulates the current segment (reversed). -/
def splitSlashAux : List Char → List Char → List String
  | [], cur => [String.mk cur.reverse]
  | c :: rest, cur =>
      if c = '/' then String.mk cur.reverse :: splitSlashAux rest []
      else splitSlashAux rest (c :: cur)

/-- JS `resourceName.split('/')`: the segments of the string between `/`
separators (the empty string yields one empty segment, as in JS). -/
def splitSlash (s : String) : List String :=
  splitSlashAux s.data []

/-- Helper for `watchNames`: the running `prev` accumulator of the source's
`map` over the `/`-separated parts. -/
def watchNamesAux : String → List String → List String
  | _, [] => []
  | prev, part :: rest =>
      let name := if prev = "" then part else prev ++ "/" ++ part
      name :: watchNamesAux name rest

/-- The source's `watchNames`: all ancestor prefixes of a resource name,
obtained by truncating at each `/` boundary, ending with the name itself. -/
def watchNames (resourceName : String) : List String :=
  watchNamesAux "" (splitSlash resourceName)

/-- JS `if (l.find(p)) ...`: `Array.prototype.find` returns the first element
satisfying `p` (or `undefined`), and the `if` then tests that element's
truthiness — the empty string is falsy, so a found empty string counts as no
match.  Both the plain-watcher filter and the GC retention check use this
pattern. -/
def findTruthy (l : List String) (p : String → Bool) : Bool :=
  match l.find? p with
  | none => false
  | some s => s ≠ ""

/-- A resource, reduced to the two capabilities the store uses: `getName()`
and the structurally comparable `toObject()` snapshot (snapshot type `α`). -/
structure Resource (α : Type) where
  getName : String
  toObject : α
deriving DecidableEq

/-- The source's `isResourceEqual`: lodash `isEqual` deep equality of the two
`toObject()` snapshots (names are not compared). -/
def isResourceEqual {α : Type} [DecidableEq α] (a b : Resource α) : Bool :=
  a.toObject = b.toObject

/-- A callback registered in the store's `_cbs` set.  Each JS registration
builds a fresh `filteredCb` closure; we give it a fresh numeric id.  A plain
callback closes over the handle's deduplicated name set; an array callback
additionally closes over the original argument list `namesArr`. -/
inductive RegCb (α : Type) where
  | plain (id : Nat) (names : List String)
  | array (id : Nat) (names : List String) (namesArr : List String)
deriving DecidableEq

def RegCb.id {α : Type} : RegCb α → Nat
  | .plain i _ => i
  | .array i _ _ => i

def RegCb.names {α : Type} : RegCb α → List String
  | .plain _ ns => ns
  | .array _ ns _ => ns

/-- An invocation of a user callback: either a plain `(name, data)` call or an
array-watcher `(arr, name, data)` call, tagged with the registration's id. -/
inductive Event (α : Type) where
  | plain (id : Nat) (name : String) (data : Option (Resource α))
  | arr (id : Nat) (arr : List (Resource α)) (name : String) (data : Option (Resource α))
deriving DecidableEq

def Event.id {α : Type} : Event α → Nat
  | .plain i _ _ => i
  | .arr i _ _ _ => i

/-- The watch handle (`WatchFunc`): the original argument list and the ids of
the callbacks registered through this handle (the closure's `cbs` set). -/
structure Handle where
  namesArr : List String
  cbIds : List Nat
deriving DecidableEq

/-- The store state: `_d` entries, `_cbs` registered callbacks in
registration order, `_w` per-name reference counts, plus a counter providing
fresh ids for new callback closures. -/
structure DataStore (α : Type) where
  _d : List (String × Resource α)
  _cbs : List (RegCb α)
  _w : List (String × Int)
  nextId : Nat
deriving DecidableEq

def DataStore.empty (α : Type) : DataStore α := ⟨[], [], [], 0⟩

/-- The source's `get`: pure lookup in `_d`. -/
def DataStore.get {α : Type} (st : DataStore α) (name : String) : Option (Resource α) :=
  alookup name st._d

/-- One registered callback reacting to a published change, against store
state `st` (the state current at publish time).  A plain callback fires when
`watchNames(name).find(n => names.has(n))` is truthy; an array callback fires
on exact membership and receives the present resources of `namesArr` in
order, via `this.get`. -/
def fireCb {α : Type} (st : DataStore α) (c : RegCb α) (name : String)
    (data : Option (Resource α)) : Option (Event α) :=
  match c with
  | .plain i names =>
      if findTruthy (watchNames name) (fun n => names.contains n) then
        some (.plain i name data)
      else none
  | .array i names namesArr =>
      if names.contains name then
        some (.arr i (namesArr.filterMap (fun n => st.get n)) name data)
      else none

/-- The source's `_publish`: invoke every registered callback in registration
order; the trace of resulting user-callback invocations. -/
def publishEvents {α : Type} (st : DataStore α) (name : String)
    (data : Option (Resource α)) : List (Event α) :=
  st._cbs.filterMap (fun c => fireCb st c name data)

/-- The body of `add` for a single item: skip silently when an entry with the
same name exists and has an equal snapshot; otherwise store the item and
publish `(name, item)` against the updated state. -/
def addOne {α : Type} [DecidableEq α] (st : DataStore α) (item : Resource α) :
    DataStore α × List (Event α) :=
  let name := item.getName
  match alookup name st._d with
  | some existing =>
      if isResourceEqual item existing then (st, [])
      else
        let st' := { st with _d := aset name item st._d }
        (st', publishEvents st' name (some item))
  | none =>
      let st' := { st with _d := aset name item st._d }
      (st', publishEvents st' name (some item))

/-- A fresh watch handle for a name list, as built by `watch(...namesArr)`:
no callbacks registered yet. -/
def mkWatch (namesArr : List String) : Handle := ⟨namesArr, []⟩

/-- The source's `watch`: builds the handle and its closures but performs no
store mutation — registration happens only when the handle is used. -/
def DataStore.watch {α : Type} (st : DataStore α) (namesArr : List String) :
    DataStore α × Handle :=
  (st, mkWatch namesArr)

/-- One step of `add`'s `forEach` loop, threading the state and the trace. -/
def addStep {α : Type} [DecidableEq α] (acc : DataStore α × List (Event α))
    (item : Resource α) : DataStore α × List (Event α) :=
  let r := addOne acc.1 item
  (r.1, acc.2 ++ r.2)

/-- The source's `add`: process the items in order, then return a watch
handle over all their names (skipped items included). -/
def DataStore.add {α : Type} [DecidableEq α] (st : DataStore α)
    (items : List (Resource α)) : DataStore α × Handle × List (Event α) :=
  let p := items.foldl addStep (st, [])
  (p.1, mkWatch (items.map Resource.getName), p.2)

/-- The source's `del`: remove the entry (a no-op on a missing key) and
publish `(name, undefined)` against the updated state. -/
def DataStore.del {α : Type} (st : DataStore α) (name : String) :
    DataStore α × List (Event α) :=
  let st' := { st with _d := adel name st._d }
  (st', publishEvents st' name none)

/-- The per-name increment loop shared by both registration paths:
`this._w[n] = (this._w[n] || 0) + 1` for each name of the handle's set. -/
def incAll (names : List String) (w : List (String × Int)) : List (String × Int) :=
  names.foldl (fun w n => aset n ((alookup n w).getD 0 + 1) w) w

/-- Registering a plain callback through a handle: a fresh filtered closure
joins `_cbs`, every name of the handle's deduplicated set is incremented, and
the handle records the registration. -/
def registerPlain {α : Type} (st : DataStore α) (h : Handle) :
    DataStore α × Handle :=
  let names := setList h.namesArr
  ({ st with
      _cbs := st._cbs ++ [RegCb.plain st.nextId names]
      _w := incAll names st._w
      nextId := st.nextId + 1 },
   { h with cbIds := h.cbIds ++ [st.nextId] })

/-- Registering an array callback through a handle (`handle.arrayWatcher`):
same bookkeeping as the plain path, with the original `namesArr` captured. -/
def registerArray {α : Type} (st : DataStore α) (h : Handle) :
    DataStore α × Handle :=
  let names := setList h.namesArr
  ({ st with
      _cbs := st._cbs ++ [RegCb.array st.nextId names h.namesArr]
      _w := incAll names st._w
      nextId := st.nextId + 1 },
   { h with cbIds := h.cbIds ++ [st.nextId] })

/-- One decrement `this._w[n] = (this._w[n] || 0) - 1`, deleting the binding
when the stored value is exactly `0`. -/
def decOne (w : List (String × Int)) (n : String) : List (String × Int) :=
  let c := (alookup n w).getD 0 - 1
  if c = 0 then adel n w else aset n c w

/-- The name loop inside `unsubscribe`, run once per removed callback. -/
def decAll (names : List String) (w : List (String × Int)) : List (String × Int) :=
  names.foldl decOne w

/-- One iteration of `unsubscribe`'s `cbs.forEach`: drop the callback from
the store and decrement every name of the handle's set. -/
def unsubStep {α : Type} (names : List String) (st : DataStore α) (i : Nat) :
    DataStore α :=
  { st with
      _cbs := st._cbs.filter (fun c => c.id ≠ i)
      _w := decAll names st._w }

/-- The source's `unsubscribe`: remove every callback registered through this
handle, decrementing each watched name once per removed callback; the
handle's own `cbs` set is emptied. -/
def unsubscribe {α : Type} (st : DataStore α) (h : Handle) :
    DataStore α × Handle :=
  (h.cbIds.foldl (unsubStep (setList h.namesArr)) st, { h with cbIds := [] })

/-- The source's `garbageCollect`: keep exactly the entries whose ancestor
prefix chain has a truthy `find` against the watched-name map; no callback is
consulted or invoked. -/
def DataStore.garbageCollect {α : Type} (st : DataStore α) : DataStore α :=
  { st with
      _d := st._d.filter
        (fun kv => findTruthy (watchNames kv.1) (fun n => (alookup n st._w).isSome)) }

/-- The spec's matching rule, written from the spec's words for comparison
with the code's behaviour: a change to `name` is delivered to a watcher on
set `S` when some ancestor prefix of `name` (the name itself included) is a
member of `S`. -/
def specMatch (S : List String) (name : String) : Bool :=
  (watchNames name).any (fun n => S.contains n)

/-- Number of registered callbacks whose watch set contains `n`; the
reference count `_w` is meant to track this. -/
def cbCount {α : Type} (st : DataStore α) (n : String) : Nat :=
  (st._cbs.filter (fun c => c.names.contains n)).length

/-- All callback ids registered through any of the given handles. -/
def allIds (hs : List Handle) : List Nat :=
  hs.flatMap Handle.cbIds

/-- Store configurations reachable through the public interface, paired with
the watch handles handed out so far.  The `perm` step lets any handle be
brought to the front so that a registration or an unsubscription can be
performed on it. -/
inductive Reachable {α : Type} [DecidableEq α] : DataStore α → List Handle → Prop where
  | empty : Reachable (DataStore.empty α) []
  | watch (st : DataStore α) (hs : List Handle) (names : List String) :
      Reachable st hs → Reachable (st.watch names).1 ((st.watch names).2 :: hs)
  | add (st : DataStore α) (hs : List Handle) (items : List (Resource α)) :
      Reachable st hs → Reachable (st.add items).1 ((st.add items).2.1 :: hs)
  | del (st : DataStore α) (hs : List Handle) (name : String) :
      Reachable st hs → Reachable (st.del name).1 hs
  | gc (st : DataStore α) (hs : List Handle) :
      Reachable st hs → Reachable st.garbageCollect hs
  | regPlain (st : DataStore α) (h : Handle) (hs : List Handle) :
      Reachable st (h :: hs) →
      Reachable (registerPlain st h).1 ((registerPlain st h).2 :: hs)
  | regArray (st : DataStore α) (h : Handle) (hs : List Handle) :
      Reachable st (h :: hs) →
      Reachable (registerArray st h).1 ((registerArray st h).2 :: hs)
  | unsub (st : DataStore α) (h : Handle) (hs : List Handle) :
      Reachable st (h :: hs) →
      Reachable (unsubscribe st h).1 ((unsubscribe st h).2 :: hs)
  | perm (st : DataStore α) (hs hs' : List Handle) :
      Reachable st hs → hs.Perm hs' → Reachable st hs'

/-- The bookkeeping invariant tying the reference counts to the registered
callbacks and the issued handles: every count equals the number of live
registered callbacks watching that name (with zero counts absent), callback
ids are fresh and distinct, and each handle's recorded registrations are live
callbacks carrying the handle's deduplicated name set. -/
structure Inv {α : Type} (st : DataStore α) (hs : List Handle) : Prop where
  counts : ∀ n, alookup n st._w =
    (if cbCount st n = 0 then none else some (cbCount st n : Int))
  idsLt : ∀ c ∈ st._cbs, RegCb.id c < st.nextId
  idsNodup : (st._cbs.map RegCb.id).Nodup
  hIds : ∀ h ∈ hs, ∀ i ∈ h.cbIds, ∃ c ∈ st._cbs,
    RegCb.id c = i ∧ RegCb.names c = setList h.namesArr
  hNodup : (allIds hs).Nodup

/-! Association-list lemmas. -/

theorem alookup_aset_self {β : Type} (k : String) (v : β) (w : List (String × β)) :
    alookup k (aset k v w) = some v := by
  induction w with
  | nil => simp [aset, alookup]
  | cons kv rest ih =>
      obtain ⟨k', v'⟩ := kv
      by_cases h : k' = k
      · simp [aset, h, alookup]
      · simp [aset, h, alookup, ih]

theorem alookup_aset_ne {β : Type} {k k' : String} (h : k' ≠ k) (v : β)
    (w : List (String × β)) : alookup k (aset k' v w) = alookup k w := by
  induction w with
  | nil => simp [aset, alookup, h]
  | cons kv rest ih =>
      obtain ⟨k'', v''⟩ := kv
      by_cases h2 : k'' = k'
      · subst h2; simp [aset, alookup, h, Ne.symm h, ih]
      · by_cases h3 : k'' = k
        · simp [aset, h2, alookup, h3, Ne.symm h]
        · simp [aset, h2, alookup, h3, ih]

theorem alookup_filter_key {β : Type} (q : String → Bool) (k : String)
    (w : List (String × β)) :
    alookup k (w.filter (fun kv => q kv.1)) = if q k then alookup k w else none := by
  induction w with
  | nil => simp [alookup]
  | cons kv rest ih =>
      obtain ⟨k', v'⟩ := kv
      by_cases hk : k' = k
      · subst hk
        by_cases hq : q k'
        · simp [List.filter_cons, hq, alookup]
        · simp [List.filter_cons, hq, alookup, ih]
      · by_cases hq : q k'
        · simp [List.filter_cons, hq, alookup, hk, ih]
        · simp [List.filter_cons, hq, alookup, hk, ih]

theorem alookup_adel_self {β : Type} (k : String) (w : List (String × β)) :
    alookup k (adel k w) = none := by
  have h := alookup_filter_key (fun s => decide (s ≠ k)) k w
  simp only [decide_not] at h
  simpa [adel] using h

theorem alookup_adel_ne {β : Type} {k k' : String} (h : k' ≠ k) (w : List (String × β)) :
    alookup k (adel k' w) = alookup k w := by
  have h2 := alookup_filter_key (fun s => decide (s ≠ k')) k w
  simp only [decide_not] at h2
  simpa [adel, Ne.symm h] using h2

theorem adel_of_alookup_none {β : Type} {k : String} {w : List (String × β)}
    (h : alookup k w = none) : adel k w = w := by
  refine List.filter_eq_self.mpr ?_
  intro kv hkv
  simp only [decide_eq_true_eq]
  intro he
  induction w with
  | nil => cases hkv
  | cons kv' rest ih =>
      obtain ⟨k', v'⟩ := kv'
      by_cases hk : k' = k
      · simp [alookup, hk] at h
      · have h' : alookup k rest = none := by simpa [alookup, hk] using h
        rcases List.mem_cons.mp hkv with rfl | hm
        · exact hk he
        · exact ih h' hm

/-! Lemmas about the deduplicated name set. -/

theorem mem_setList (b : String) (l : List String) : b ∈ setList l ↔ b ∈ l := by
  induction l with
  | nil => simp [setList]
  | cons a rest ih =>
      by_cases hb : b = a
      · subst hb; simp [setList]
      · simp [setList, List.mem_filter, ih, hb]

theorem nodup_setList (l : List String) : (setList l).Nodup := by
  induction l with
  | nil => simp [setList]
  | cons a rest ih =>
      refine List.nodup_cons.mpr ⟨?_, ih.filter _⟩
      intro hmem
      have := List.of_mem_filter hmem
      simp at this

/-! Lemmas about the reference-count increment and decrement loops. -/

theorem alookup_incAll_not_mem {n : String} : ∀ {names : List String}, n ∉ names →
    ∀ w, alookup n (incAll names w) = alookup n w := by
  intro names
  induction names with
  | nil => intro _ w; rfl
  | cons a rest ih =>
      intro h w
      have h1 : a ≠ n := fun e => h (e ▸ List.mem_cons_self a rest)
      have h2 : n ∉ rest := fun hm => h (List.mem_cons_of_mem _ hm)
      show alookup n (incAll rest (aset a ((alookup a w).getD 0 + 1) w)) = _
      rw [ih h2, alookup_aset_ne h1]

theorem alookup_incAll_mem {n : String} : ∀ {names : List String}, names.Nodup →
    n ∈ names → ∀ w, alookup n (incAll names w) = some ((alookup n w).getD 0 + 1) := by
  intro names
  induction names with
  | nil => intro _ h; cases h
  | cons a rest ih =>
      intro hnd h w
      rcases List.mem_cons.mp h with rfl | hm
      · have hrest : n ∉ rest := (List.nodup_cons.mp hnd).1
        show alookup n (incAll rest (aset n ((alookup n w).getD 0 + 1) w)) = _
        rw [alookup_incAll_not_mem hrest, alookup_aset_self]
      · have hnd' := (List.nodup_cons.mp hnd).2
        have hna : a ≠ n := fun e => (List.nodup_cons.mp hnd).1 (e ▸ hm)
        show alookup n (incAll rest (aset a ((alookup a w).getD 0 + 1) w)) = _
        rw [ih hnd' hm, alookup_aset_ne hna]

theorem alookup_decOne_self (n : String) (w : List (String × Int)) :
    alookup n (decOne w n) =
      (if (alookup n w).getD 0 - 1 = 0 then none else some ((alookup n w).getD 0 - 1)) := by
  by_cases hc : (alookup n w).getD 0 - 1 = 0
  · simp [decOne, hc, alookup_adel_self]
  · simp [decOne, hc, alookup_aset_self]

theorem alookup_decOne_ne {m n : String} (h : n ≠ m) (w : List (String × Int)) :
    alookup m (decOne w n) = alookup m w := by
  by_cases hc : (alookup n w).getD 0 - 1 = 0
  · simp [decOne, hc, alookup_adel_ne h]
  · simp [decOne, hc, alookup_aset_ne h]

theorem alookup_decAll_not_mem {n : String} : ∀ {names : List String}, n ∉ names →
    ∀ w, alookup n (decAll names w) = alookup n w := by
  intro names
  induction names with
  | nil => intro _ w; rfl
  | cons a rest ih =>
      intro h w
      have h1 : a ≠ n := fun e => h (e ▸ List.mem_cons_self a rest)
      have h2 : n ∉ rest := fun hm => h (List.mem_cons_of_mem _ hm)
      show alookup n (decAll rest (decOne w a)) = _
      rw [ih h2, alookup_decOne_ne h1]

theorem alookup_decAll_mem {n : String} : ∀ {names : List String}, names.Nodup →
    n ∈ names → ∀ w, alookup n (decAll names w) =
      (if (alookup n w).getD 0 - 1 = 0 then none else some ((alookup n w).getD 0 - 1)) := by
  intro names
  induction names with
  | nil => intro _ h; cases h
  | cons a rest ih =>
      intro hnd h w
      rcases List.mem_cons.mp h with rfl | hm
      · have hrest : n ∉ rest := (List.nodup_cons.mp hnd).1
        show alookup n (decAll rest (decOne w n)) = _
        rw [alookup_decAll_not_mem hrest, alookup_decOne_self]
      · have hnd' := (List.nodup_cons.mp hnd).2
        have hna : a ≠ n := fun e => (List.nodup_cons.mp hnd).1 (e ▸ hm)
        show alookup n (decAll rest (decOne w a)) = _
        rw [ih hnd' hm, alookup_decOne_ne hna]

theorem alookup_decRounds {n : String} {names : List String} (hnd : names.Nodup)
    (hn : n ∈ names) : ∀ (ids : List Nat) (w : List (String × Int)) (c : Int),
    alookup n w = some c → 0 < c → (ids.length : Int) ≤ c →
    alookup n (ids.foldl (fun w _ => decAll names w) w) =
      (if c = (ids.length : Int) then none else some (c - ids.length)) := by
  intro ids
  induction ids with
  | nil =>
      intro w c hc hpos _
      have hne : c ≠ (0 : Int) := by omega
      simp only [List.foldl_nil, List.length_nil, Nat.cast_zero, hc, if_neg hne]
      congr 1
      omega
  | cons i ids ih =>
      intro w c hc hpos hlen
      have hstep : alookup n (decAll names w) =
          (if c - 1 = 0 then none else some (c - 1)) := by
        rw [alookup_decAll_mem hnd hn, hc]
        simp
      by_cases h1 : c = 1
      · subst h1
        have hids : ids = [] := by
          cases ids with
          | nil => rfl
          | cons j js => simp at hlen; omega
        subst hids
        simp only [List.foldl_cons, List.foldl_nil]
        rw [hstep]
        simp
      · have hc1 : alookup n (decAll names w) = some (c - 1) := by
          rw [hstep]
          have : ¬ c - 1 = (0 : Int) := by omega
          simp [this]
        have hlen' : (ids.length : Int) ≤ c - 1 := by
          simp at hlen; omega
        have hpos' : 0 < c - 1 := by omega
        simp only [List.foldl_cons]
        rw [ih (decAll names w) (c - 1) hc1 hpos' hlen']
        simp only [List.length_cons, Nat.cast_add, Nat.cast_one]
        by_cases hq : c - 1 = (ids.length : Int)
        · rw [if_pos hq, if_pos (by omega)]
        · rw [if_neg hq, if_neg (by omega)]
          congr 1
          omega

theorem alookup_decRounds_not_mem {n : String} {names : List String} (h : n ∉ names)
    (ids : List Nat) : ∀ w,
    alookup n (ids.foldl (fun w _ => decAll names w) w) = alookup n w := by
  induction ids with
  | nil => intro w; rfl
  | cons i ids ih =>
      intro w
      simp only [List.foldl_cons]
      exact (ih (decAll names w)).trans (alookup_decAll_not_mem h w)

/-! Projections of the `unsubscribe` fold. -/

theorem unsubFold_d {α : Type} (names : List String) (ids : List Nat) :
    ∀ st : DataStore α, (ids.foldl (unsubStep names) st)._d = st._d := by
  induction ids with
  | nil => intro st; rfl
  | cons i ids ih => intro st; simpa [List.foldl_cons] using ih (unsubStep names st i)

theorem unsubFold_nextId {α : Type} (names : List String) (ids : List Nat) :
    ∀ st : DataStore α, (ids.foldl (unsubStep names) st).nextId = st.nextId := by
  induction ids with
  | nil => intro st; rfl
  | cons i ids ih => intro st; simpa [List.foldl_cons] using ih (unsubStep names st i)

theorem unsubFold_w {α : Type} (names : List String) (ids : List Nat) :
    ∀ st : DataStore α, (ids.foldl (unsubStep names) st)._w =
      ids.foldl (fun w _ => decAll names w) st._w := by
  induction ids with
  | nil => intro st; rfl
  | cons i ids ih =>
      intro st
      simp only [List.foldl_cons]
      exact ih (unsubStep names st i)

theorem unsubFold_cbs {α : Type} (names : List String) (ids : List Nat) :
    ∀ st : DataStore α, (ids.foldl (unsubStep names) st)._cbs =
      st._cbs.filter (fun c => decide (RegCb.id c ∉ ids)) := by
  induction ids with
  | nil =>
      intro st
      simp [List.filter_eq_self]
  | cons i ids ih =>
      intro st
      simp only [List.foldl_cons]
      rw [ih (unsubStep names st i)]
      show (st._cbs.filter fun c => decide (RegCb.id c ≠ i)).filter
          (fun c => decide (RegCb.id c ∉ ids)) = _
      rw [List.filter_filter]
      refine List.filter_congr ?_
      intro c _
      by_cases h1 : RegCb.id c = i
      · simp [h1]
      · by_cases h2 : RegCb.id c ∈ ids <;> simp [h1, h2]

/-! Lemmas about `fireCb` and `publishEvents`. -/

theorem fireCb_id {α : Type} {st : DataStore α} {c : RegCb α} {name : String}
    {data : Option (Resource α)} {e : Event α} (h : fireCb st c name data = some e) :
    Event.id e = RegCb.id c := by
  cases c with
  | plain i ns =>
      simp only [fireCb] at h
      split at h
      · cases h; rfl
      · cases h
  | array i ns nsArr =>
      simp only [fireCb] at h
      split at h
      · cases h; rfl
      · cases h

theorem fireCb_congr_d {α : Type} {st st' : DataStore α} (h : st._d = st'._d)
    (c : RegCb α) (name : String) (data : Option (Resource α)) :
    fireCb st c name data = fireCb st' c name data := by
  cases c with
  | plain i ns => rfl
  | array i ns nsArr => simp [fireCb, DataStore.get, h]

theorem filterMap_filter_of_id {α : Type} {f : RegCb α → Option (Event α)}
    {pc : RegCb α → Bool} {pe : Event α → Bool}
    (hpe : ∀ c e, f c = some e → pc c = pe e) :
    ∀ l : List (RegCb α), (l.filter pc).filterMap f = (l.filterMap f).filter pe := by
  intro l
  induction l with
  | nil => rfl
  | cons c rest ih =>
      cases hf : f c with
      | none =>
          by_cases hp : pc c
          · rw [List.filter_cons_of_pos hp]
            simp only [List.filterMap_cons, hf, ih]
          · rw [List.filter_cons_of_neg hp]
            simp only [List.filterMap_cons, hf, ih]
      | some e =>
          have hq := hpe c e hf
          by_cases hp : pc c
          · rw [List.filter_cons_of_pos hp]
            simp only [List.filterMap_cons, hf]
            rw [List.filter_cons_of_pos (by rw [← hq]; exact hp), ih]
          · rw [List.filter_cons_of_neg hp]
            simp only [List.filterMap_cons, hf]
            rw [List.filter_cons_of_neg (by rw [← hq]; exact hp), ih]

theorem countP_fire_zero {α : Type} (st : DataStore α) {i : Nat} (name : String)
    (data : Option (Resource α)) :
    ∀ {l : List (RegCb α)}, (∀ c ∈ l, RegCb.id c ≠ i) →
    (l.filterMap (fun c => fireCb st c name data)).countP
      (fun e => decide (Event.id e = i)) = 0 := by
  intro l
  induction l with
  | nil => intro _; rfl
  | cons c rest ih =>
      intro h
      have hrest := fun c' hc' => h c' (List.mem_cons_of_mem _ hc')
      cases hf : fireCb st c name data with
      | none =>
          simp only [List.filterMap_cons, hf]
          exact ih hrest
      | some e =>
          simp only [List.filterMap_cons, hf]
          have hne : Event.id e ≠ i := by
            rw [fireCb_id hf]; exact h c (List.mem_cons_self c rest)
          rw [List.countP_cons_of_neg]
          · exact ih hrest
          · simpa using hne

theorem countP_publish_id {α : Type} (st : DataStore α)
    (hnd : (st._cbs.map RegCb.id).Nodup) {c : RegCb α} (hc : c ∈ st._cbs)
    (name : String) (data : Option (Resource α)) :
    (publishEvents st name data).countP (fun e => decide (Event.id e = RegCb.id c)) =
      (if (fireCb st c name data).isSome then 1 else 0) := by
  unfold publishEvents
  revert hnd hc
  generalize st._cbs = l
  induction l with
  | nil => intro _ hc; cases hc
  | cons c' rest ih =>
      intro hnd hc
      have hnd' : (rest.map RegCb.id).Nodup := (List.nodup_cons.mp hnd).2
      have hhead : RegCb.id c' ∉ rest.map RegCb.id := (List.nodup_cons.mp hnd).1
      rcases List.mem_cons.mp hc with rfl | hm
      · have hzero : (rest.filterMap (fun c2 => fireCb st c2 name data)).countP
            (fun e => decide (Event.id e = RegCb.id c)) = 0 := by
          refine countP_fire_zero st name data ?_
          intro c2 hc2 he
          exact hhead (he ▸ List.mem_map_of_mem RegCb.id hc2)
        cases hf : fireCb st c name data with
        | none =>
            simp only [List.filterMap_cons, hf]
            simp [hzero, hf]
        | some e =>
            simp only [List.filterMap_cons, hf]
            rw [List.countP_cons_of_pos]
            · simp [hzero, hf]
            · simp [fireCb_id hf]
      · have hne : RegCb.id c' ≠ RegCb.id c := by
          intro he
          exact hhead (he ▸ List.mem_map_of_mem RegCb.id hm)
        cases hf : fireCb st c' name data with
        | none =>
            simp only [List.filterMap_cons, hf]
            exact ih hnd' hm
        | some e =>
            simp only [List.filterMap_cons, hf]
            rw [List.countP_cons_of_neg]
            · exact ih hnd' hm
            · simp [fireCb_id hf]
              exact hne

theorem mem_publish_plain {α : Type} (st : DataStore α)
    (hnd : (st._cbs.map RegCb.id).Nodup) {i : Nat} {S : List String}
    (hc : RegCb.plain i S ∈ st._cbs) (name : String) (data : Option (Resource α)) :
    Event.plain i name data ∈ publishEvents st name data ↔
      findTruthy (watchNames name) (fun n => S.contains n) = true := by
  constructor
  · intro hm
    rcases List.mem_filterMap.mp hm with ⟨c', hc', hf⟩
    have hid : RegCb.id c' = i := by
      have h2 := fireCb_id hf
      simpa [Event.id] using h2.symm
    have hcc : c' = RegCb.plain i S :=
      List.inj_on_of_nodup_map hnd hc' hc hid
    subst hcc
    simp only [fireCb] at hf
    split at hf
    · assumption
    · cases hf
  · intro hcond
    refine List.mem_filterMap.mpr ⟨RegCb.plain i S, hc, ?_⟩
    have hcond' : findTruthy (watchNames name) (fun n => decide (n ∈ S)) = true := by
      simpa using hcond
    simp [fireCb, hcond']

theorem mem_publish_array {α : Type} (st : DataStore α)
    (hnd : (st._cbs.map RegCb.id).Nodup) {i : Nat} {S L : List String}
    (hc : RegCb.array i S L ∈ st._cbs) (name : String) (data : Option (Resource α))
    (arr : List (Resource α)) :
    Event.arr i arr name data ∈ publishEvents st name data ↔
      (S.contains name = true ∧ arr = L.filterMap (fun n => st.get n)) := by
  constructor
  · intro hm
    rcases List.mem_filterMap.mp hm with ⟨c', hc', hf⟩
    have hid : RegCb.id c' = i := by
      have h2 := fireCb_id hf
      simpa [Event.id] using h2.symm
    have hcc : c' = RegCb.array i S L :=
      List.inj_on_of_nodup_map hnd hc' hc hid
    subst hcc
    simp only [fireCb] at hf
    split at hf
    · simp only [Option.some.injEq, Event.arr.injEq] at hf
      exact ⟨by assumption, hf.2.1.symm⟩
    · cases hf
  · rintro ⟨hcond, rfl⟩
    refine List.mem_filterMap.mpr ⟨RegCb.array i S L, hc, ?_⟩
    have hcond' : name ∈ S := by simpa using hcond
    simp [fireCb, hcond']

/-! Frame lemmas for `add`. -/

theorem addOne_frame {α : Type} [DecidableEq α] (st : DataStore α) (item : Resource α) :
    (addOne st item).1._cbs = st._cbs ∧ (addOne st item).1._w = st._w ∧
      (addOne st item).1.nextId = st.nextId := by
  rcases hl : alookup item.getName st._d with _ | ex
  · simp [addOne, hl]
  · by_cases he : isResourceEqual item ex <;> simp [addOne, hl, he]

theorem addFold_frame {α : Type} [DecidableEq α] (items : List (Resource α)) :
    ∀ (st : DataStore α) (acc : List (Event α)),
      (items.foldl addStep (st, acc)).1._cbs = st._cbs ∧
      (items.foldl addStep (st, acc)).1._w = st._w ∧
      (items.foldl addStep (st, acc)).1.nextId = st.nextId := by
  induction items with
  | nil => intro st acc; exact ⟨rfl, rfl, rfl⟩
  | cons item rest ih =>
      intro st acc
      simp only [List.foldl_cons]
      have h1 := addOne_frame st item
      have h2 := ih (addOne st item).1 (acc ++ (addOne st item).2)
      refine ⟨?_, ?_, ?_⟩
      · rw [show addStep (st, acc) item = ((addOne st item).1, acc ++ (addOne st item).2) from rfl]
        rw [h2.1, h1.1]
      · rw [show addStep (st, acc) item = ((addOne st item).1, acc ++ (addOne st item).2) from rfl]
        rw [h2.2.1, h1.2.1]
      · rw [show addStep (st, acc) item = ((addOne st item).1, acc ++ (addOne st item).2) from rfl]
        rw [h2.2.2, h1.2.2]

theorem add_frame {α : Type} [DecidableEq α] (st : DataStore α) (items : List (Resource α)) :
    (st.add items).1._cbs = st._cbs ∧ (st.add items).1._w = st._w ∧
      (st.add items).1.nextId = st.nextId := by
  simpa [DataStore.add] using addFold_frame items st []

/-! The observable effect of `unsubscribe` on later notifications. -/

theorem publish_filter_ids {α : Type} (st2 st1 : DataStore α) (ids : List Nat)
    (hcbs : st2._cbs = st1._cbs.filter (fun c => decide (RegCb.id c ∉ ids)))
    (hd : st2._d = st1._d) (name : String) (data : Option (Resource α)) :
    publishEvents st2 name data =
      (publishEvents st1 name data).filter (fun e => decide (Event.id e ∉ ids)) := by
  unfold publishEvents
  rw [hcbs]
  have hfire : ∀ c, fireCb st2 c name data = fireCb st1 c name data :=
    fun c => fireCb_congr_d hd c name data
  rw [List.filterMap_congr (fun c _ => hfire c)]
  exact filterMap_filter_of_id
    (fun c e hf => by rw [fireCb_id hf]) st1._cbs

theorem publish_unsub_filter {α : Type} (st : DataStore α) (h : Handle)
    (name : String) (data : Option (Resource α)) :
    publishEvents (unsubscribe st h).1 name data =
      (publishEvents st name data).filter (fun e => decide (Event.id e ∉ h.cbIds)) :=
  publish_filter_ids (unsubscribe st h).1 st h.cbIds
    (unsubFold_cbs (setList h.namesArr) h.cbIds st)
    (unsubFold_d (setList h.namesArr) h.cbIds st) name data

/-! Counting lemmas for the reference-count invariant. -/

theorem contains_iff_mem {a : String} {l : List String} : l.contains a = true ↔ a ∈ l := by
  simp

theorem cbCount_eq_countP {α : Type} (st : DataStore α) (n : String) :
    cbCount st n = st._cbs.countP (fun c => (RegCb.names c).contains n) :=
  (List.countP_eq_length_filter _ _).symm

theorem cbCount_append_single {α : Type} (st : DataStore α) (c : RegCb α) (n : String) :
    ((st._cbs ++ [c]).filter (fun c2 => (RegCb.names c2).contains n)).length
      = cbCount st n + (if (RegCb.names c).contains n then 1 else 0) := by
  rw [List.filter_append, List.length_append]
  unfold cbCount
  congr 1
  by_cases hq : n ∈ RegCb.names c <;> simp [hq]

theorem countP_filter_ne_single {α : Type} (q : RegCb α → Bool) :
    ∀ (l : List (RegCb α)), (l.map RegCb.id).Nodup →
    ∀ (c0 : RegCb α), c0 ∈ l → q c0 = true →
    ((l.filter (fun c => decide (RegCb.id c ≠ RegCb.id c0))).countP q
        = l.countP q - 1 ∧ 1 ≤ l.countP q) := by
  intro l
  induction l with
  | nil => intro _ c0 hc0; cases hc0
  | cons c rest ih =>
      intro hnd c0 hc0 hq
      have hnd' : (rest.map RegCb.id).Nodup := (List.nodup_cons.mp hnd).2
      have hhead : RegCb.id c ∉ rest.map RegCb.id := (List.nodup_cons.mp hnd).1
      rcases List.mem_cons.mp hc0 with rfl | hm
      · rw [List.filter_cons_of_neg (by simp)]
        have hrest : rest.filter (fun c2 => decide (RegCb.id c2 ≠ RegCb.id c0)) = rest := by
          refine List.filter_eq_self.mpr ?_
          intro c2 hc2
          simp only [decide_eq_true_eq]
          intro he
          exact hhead (he ▸ List.mem_map_of_mem RegCb.id hc2)
        rw [hrest, List.countP_cons_of_pos _ _ hq]
        exact ⟨by omega, by omega⟩
      · have hne : RegCb.id c ≠ RegCb.id c0 := by
          intro he
          exact hhead (he ▸ List.mem_map_of_mem RegCb.id hm)
        rcases ih hnd' c0 hm hq with ⟨ih1, ih2⟩
        rw [List.filter_cons_of_pos (by simpa using hne)]
        by_cases hqc : q c
        · rw [List.countP_cons_of_pos _ _ hqc, List.countP_cons_of_pos _ _ hqc]
          exact ⟨by omega, by omega⟩
        · rw [List.countP_cons_of_neg _ _ (by simpa using hqc),
              List.countP_cons_of_neg _ _ (by simpa using hqc)]
          exact ⟨ih1, by omega⟩

theorem countP_filter_not_mem_ids {α : Type} (q : RegCb α → Bool) :
    ∀ (ids : List Nat) (l : List (RegCb α)), (l.map RegCb.id).Nodup → ids.Nodup →
    (∀ i ∈ ids, ∃ c ∈ l, RegCb.id c = i ∧ q c = true) →
    ((l.filter (fun c => decide (RegCb.id c ∉ ids))).countP q
        = l.countP q - ids.length ∧ ids.length ≤ l.countP q) := by
  intro ids
  induction ids with
  | nil =>
      intro l _ _ _
      rw [List.filter_eq_self.mpr (by intro c _; simp)]
      exact ⟨by simp, by simp⟩
  | cons i ids ih =>
      intro l hnd hidnd hex
      have hi_not : i ∉ ids := (List.nodup_cons.mp hidnd).1
      have hidnd' : ids.Nodup := (List.nodup_cons.mp hidnd).2
      rcases hex i (List.mem_cons_self i ids) with ⟨c0, hc0, hc0id, hc0q⟩
      have hcomp : l.filter (fun c => decide (RegCb.id c ∉ i :: ids))
          = (l.filter (fun c => decide (RegCb.id c ≠ i))).filter
              (fun c => decide (RegCb.id c ∉ ids)) := by
        rw [List.filter_filter]
        refine (List.filter_congr ?_)
        intro c _
        by_cases h1 : RegCb.id c = i
        · simp [h1]
        · by_cases h2 : RegCb.id c ∈ ids <;> simp [h1, h2]
      rcases countP_filter_ne_single q l hnd c0 hc0 hc0q with ⟨h1, h2⟩
      rw [hc0id] at h1
      have hl1nd : ((l.filter (fun c => decide (RegCb.id c ≠ i))).map RegCb.id).Nodup :=
        hnd.sublist ((List.filter_sublist l).map RegCb.id)
      have hex' : ∀ j ∈ ids, ∃ c ∈ l.filter (fun c => decide (RegCb.id c ≠ i)),
          RegCb.id c = j ∧ q c = true := by
        intro j hj
        rcases hex j (List.mem_cons_of_mem i hj) with ⟨c2, hc2, hc2id, hc2q⟩
        refine ⟨c2, List.mem_filter.mpr ⟨hc2, ?_⟩, hc2id, hc2q⟩
        simp only [decide_eq_true_eq]
        intro he
        rw [hc2id] at he
        exact hi_not (he ▸ hj)
      rcases ih (l.filter (fun c => decide (RegCb.id c ≠ i))) hl1nd hidnd' hex' with ⟨ih1, ih2⟩
      rw [hcomp, ih1, h1]
      refine ⟨by simp only [List.length_cons]; omega, ?_⟩
      simp only [List.length_cons]
      omega

theorem countP_filter_of_none {α : Type} (q : RegCb α → Bool) (ids : List Nat) :
    ∀ (l : List (RegCb α)), (∀ c ∈ l, RegCb.id c ∈ ids → q c = false) →
    (l.filter (fun c => decide (RegCb.id c ∉ ids))).countP q = l.countP q := by
  intro l
  induction l with
  | nil => intro _; rfl
  | cons c rest ih =>
      intro h
      have hrest := fun c' hc' => h c' (List.mem_cons_of_mem _ hc')
      by_cases hm : RegCb.id c ∈ ids
      · rw [List.filter_cons_of_neg (by simpa using hm)]
        rw [ih hrest]
        rw [List.countP_cons_of_neg _ _ (by simp [h c (List.mem_cons_self c rest) hm])]
      · rw [List.filter_cons_of_pos (by simpa using hm)]
        by_cases hqc : q c
        · rw [List.countP_cons_of_pos _ _ hqc, List.countP_cons_of_pos _ _ hqc, ih hrest]
        · rw [List.countP_cons_of_neg _ _ (by simpa using hqc),
              List.countP_cons_of_neg _ _ (by simpa using hqc), ih hrest]

theorem allIds_cons (g : Handle) (hs : List Handle) :
    allIds (g :: hs) = g.cbIds ++ allIds hs := by
  simp [allIds]

theorem mem_allIds {j : Nat} {hs : List Handle} :
    j ∈ allIds hs ↔ ∃ g ∈ hs, j ∈ g.cbIds := by
  simp [allIds]

/-! Key uniqueness of the association lists the operations build. -/

theorem mem_keys_aset {β : Type} {m k : String} (v : β) :
    ∀ w : List (String × β), m ∈ (aset k v w).map Prod.fst →
      m = k ∨ m ∈ w.map Prod.fst := by
  intro w
  induction w with
  | nil => intro h; simpa [aset] using h
  | cons kv rest ih =>
      obtain ⟨k', v'⟩ := kv
      by_cases hk : k' = k
      · intro h
        simp only [aset, if_pos hk, List.map_cons, List.mem_cons] at h
        rcases h with h | h
        · exact Or.inl h
        · exact Or.inr (by simp [h])
      · intro h
        simp only [aset, if_neg hk, List.map_cons, List.mem_cons] at h
        rcases h with h | h
        · exact Or.inr (by simp [h])
        · rcases ih h with h2 | h2
          · exact Or.inl h2
          · exact Or.inr (by simp [h2])

theorem keys_aset {β : Type} (k : String) (v : β) :
    ∀ w : List (String × β), (w.map Prod.fst).Nodup →
      ((aset k v w).map Prod.fst).Nodup := by
  intro w
  induction w with
  | nil => intro _; simp [aset]
  | cons kv rest ih =>
      obtain ⟨k', v'⟩ := kv
      intro hnd
      have hh : k' ∉ rest.map Prod.fst := (List.nodup_cons.mp (by simpa using hnd)).1
      have ht : (rest.map Prod.fst).Nodup := (List.nodup_cons.mp (by simpa using hnd)).2
      by_cases hk : k' = k
      · subst hk
        simp only [aset, if_pos rfl, List.map_cons]
        exact List.nodup_cons.mpr ⟨by simpa using hh, ht⟩
      · simp only [aset, if_neg hk, List.map_cons]
        refine List.nodup_cons.mpr ⟨?_, ih ht⟩
        intro hmem
        rcases mem_keys_aset v rest hmem with h2 | h2
        · exact hk h2
        · exact hh (by simpa using h2)

theorem keys_adel {β : Type} (k : String) (w : List (String × β))
    (hnd : (w.map Prod.fst).Nodup) : ((adel k w).map Prod.fst).Nodup :=
  hnd.sublist ((List.filter_sublist w).map Prod.fst)

theorem keys_incAll (names : List String) :
    ∀ w : List (String × Int), (w.map Prod.fst).Nodup →
      ((incAll names w).map Prod.fst).Nodup := by
  induction names with
  | nil => intro w h; exact h
  | cons a rest ih =>
      intro w h
      exact ih (aset a ((alookup a w).getD 0 + 1) w) (keys_aset a _ w h)

theorem keys_decOne (w : List (String × Int)) (n : String)
    (hnd : (w.map Prod.fst).Nodup) : ((decOne w n).map Prod.fst).Nodup := by
  unfold decOne
  by_cases hc : (alookup n w).getD 0 - 1 = 0
  · simpa [hc] using keys_adel n w hnd
  · simpa [hc] using keys_aset n ((alookup n w).getD 0 - 1) w hnd

theorem keys_decAll (names : List String) :
    ∀ w : List (String × Int), (w.map Prod.fst).Nodup →
      ((decAll names w).map Prod.fst).Nodup := by
  induction names with
  | nil => intro w h; exact h
  | cons a rest ih =>
      intro w h
      exact ih (decOne w a) (keys_decOne w a h)

theorem keys_decRounds (names : List String) (ids : List Nat) :
    ∀ w : List (String × Int), (w.map Prod.fst).Nodup →
      ((ids.foldl (fun w _ => decAll names w) w).map Prod.fst).Nodup := by
  induction ids with
  | nil => intro w h; exact h
  | cons i ids ih =>
      intro w h
      simp only [List.foldl_cons]
      exact ih (decAll names w) (keys_decAll names w h)

theorem alookup_of_mem_nodup {β : Type} {k : String} {v : β} :
    ∀ {w : List (String × β)}, (w.map Prod.fst).Nodup → (k, v) ∈ w →
      alookup k w = some v := by
  intro w
  induction w with
  | nil => intro _ hm; cases hm
  | cons kv rest ih =>
      obtain ⟨k', v'⟩ := kv
      intro hnd hm
      have hh : k' ∉ rest.map Prod.fst := (List.nodup_cons.mp (by simpa using hnd)).1
      have ht : (rest.map Prod.fst).Nodup := (List.nodup_cons.mp (by simpa using hnd)).2
      rcases List.mem_cons.mp hm with he | hmr
      · obtain ⟨rfl, rfl⟩ := Prod.mk.injEq .. ▸ he
        simp [alookup]
      · have hk : k' ≠ k := by
          intro hkk
          subst hkk
          exact hh (by simpa using List.mem_map_of_mem Prod.fst hmr)
        simp only [alookup, if_neg hk]
        exact ih ht hmr

theorem alookup_mem {β : Type} {k : String} {v : β} : ∀ {w : List (String × β)},
    alookup k w = some v → (k, v) ∈ w := by
  intro w
  induction w with
  | nil => intro h; cases h
  | cons kv rest ih =>
      obtain ⟨k', v'⟩ := kv
      intro h
      by_cases hk : k' = k
      · subst hk
        have hv : v' = v := by simpa [alookup] using h
        subst hv
        exact List.mem_cons_self _ _
      · exact List.mem_cons_of_mem _ (ih (by simpa [alookup, hk] using h))

/-! Preservation of the bookkeeping invariant by every public operation. -/

theorem inv_empty {α : Type} : Inv (DataStore.empty α) ([] : List Handle) := by
  constructor
  · intro n
    simp [DataStore.empty, alookup, cbCount]
  · intro c hc
    cases hc
  · simp [DataStore.empty]
  · intro g hg
    cases hg
  · simp [allIds]

theorem inv_frame {α : Type} {st st' : DataStore α} {hs : List Handle}
    (hcb : st'._cbs = st._cbs) (hw : st'._w = st._w) (hn : st'.nextId = st.nextId)
    (hinv : Inv st hs) : Inv st' hs := by
  have hcc : ∀ n, cbCount st' n = cbCount st n := by
    intro n
    unfold cbCount
    rw [hcb]
  constructor
  · intro n
    rw [hw, hcc n]
    exact hinv.counts n
  · intro c hc
    rw [hn]
    exact hinv.idsLt c (hcb ▸ hc)
  · rw [hcb]
    exact hinv.idsNodup
  · intro g hg i hi
    rcases hinv.hIds g hg i hi with ⟨c, hc, h1, h2⟩
    exact ⟨c, hcb ▸ hc, h1, h2⟩
  · exact hinv.hNodup

theorem inv_cons_mkWatch {α : Type} {st : DataStore α} {hs : List Handle}
    (hinv : Inv st hs) (L : List String) : Inv st (mkWatch L :: hs) := by
  constructor
  · exact hinv.counts
  · exact hinv.idsLt
  · exact hinv.idsNodup
  · intro g hg i hi
    rcases List.mem_cons.mp hg with rfl | hg'
    · cases hi
    · exact hinv.hIds g hg' i hi
  · rw [allIds_cons]
    exact hinv.hNodup

theorem inv_perm {α : Type} {st : DataStore α} {hs hs' : List Handle}
    (hp : hs.Perm hs') (hinv : Inv st hs) : Inv st hs' := by
  constructor
  · exact hinv.counts
  · exact hinv.idsLt
  · exact hinv.idsNodup
  · intro g hg i hi
    exact hinv.hIds g (hp.mem_iff.mpr hg) i hi
  · exact (List.Perm.nodup_iff (hp.flatMap_right Handle.cbIds)).mp hinv.hNodup

theorem inv_register {α : Type} {st : DataStore α} {h : Handle} {hs : List Handle}
    (hinv : Inv st (h :: hs)) (c : RegCb α) (hid : RegCb.id c = st.nextId)
    (hnames : RegCb.names c = setList h.namesArr) :
    Inv { st with
          _cbs := st._cbs ++ [c]
          _w := incAll (setList h.namesArr) st._w
          nextId := st.nextId + 1 }
        ({ h with cbIds := h.cbIds ++ [st.nextId] } :: hs) := by
  have hidlt := hinv.idsLt
  have hfresh : st.nextId ∉ st._cbs.map RegCb.id := by
    intro hmem
    rcases List.mem_map.mp hmem with ⟨c', hc', he⟩
    have := hidlt c' hc'
    omega
  have hallIds_lt : ∀ j ∈ allIds (h :: hs), j < st.nextId := by
    intro j hj
    rcases mem_allIds.mp hj with ⟨g, hg, hjg⟩
    rcases hinv.hIds g hg j hjg with ⟨c', hc', h1, _⟩
    exact h1 ▸ hidlt c' hc'
  constructor
  · intro n
    show alookup n (incAll (setList h.namesArr) st._w) = _
    have hcnt : cbCount
          { st with
            _cbs := st._cbs ++ [c]
            _w := incAll (setList h.namesArr) st._w
            nextId := st.nextId + 1 } n
        = cbCount st n + (if (RegCb.names c).contains n then 1 else 0) :=
      cbCount_append_single st c n
    by_cases hn : n ∈ setList h.namesArr
    · rw [alookup_incAll_mem (nodup_setList h.namesArr) hn st._w]
      have hcontains : (RegCb.names c).contains n = true := by
        rw [hnames]
        exact contains_iff_mem.mpr hn
      rw [hcnt, hcontains, if_pos rfl]
      have hold := hinv.counts n
      by_cases hz : cbCount st n = 0
      · rw [hz, if_pos rfl] at hold
        rw [hold, hz]
        simp
      · rw [if_neg hz] at hold
        rw [hold, if_neg (by omega)]
        simp only [Option.getD_some, Option.some.injEq]
        push_cast
        ring
    · rw [alookup_incAll_not_mem hn st._w]
      have hcontains : (RegCb.names c).contains n = false := by
        rw [hnames]
        by_contra hcon
        exact hn (contains_iff_mem.mp (by simpa using hcon))
      rw [hcnt, hcontains]
      simpa using hinv.counts n
  · intro c' hc'
    show RegCb.id c' < st.nextId + 1
    rcases List.mem_append.mp hc' with hmem | hmem
    · exact Nat.lt_succ_of_lt (hidlt c' hmem)
    · rw [List.mem_singleton.mp hmem, hid]
      omega
  · show ((st._cbs ++ [c]).map RegCb.id).Nodup
    rw [List.map_append]
    refine List.nodup_append.mpr ⟨hinv.idsNodup, by simp, ?_⟩
    intro a ha hb
    simp only [List.map_cons, List.map_nil, List.mem_singleton] at hb
    rw [hb, hid] at ha
    exact hfresh ha
  · intro g hg i hi
    rcases List.mem_cons.mp hg with rfl | hg'
    · rcases List.mem_append.mp hi with hi' | hi'
      · rcases hinv.hIds h (List.mem_cons_self h hs) i hi' with ⟨c', hc', h1, h2⟩
        exact ⟨c', List.mem_append_left _ hc', h1, h2⟩
      · rw [List.mem_singleton.mp hi']
        exact ⟨c, List.mem_append_right _ (List.mem_singleton_self c), hid, hnames⟩
    · rcases hinv.hIds g (List.mem_cons_of_mem _ hg') i hi with ⟨c', hc', h1, h2⟩
      exact ⟨c', List.mem_append_left _ hc', h1, h2⟩
  · show (allIds ({ h with cbIds := h.cbIds ++ [st.nextId] } :: hs)).Nodup
    rw [allIds_cons]
    show ((h.cbIds ++ [st.nextId]) ++ allIds hs).Nodup
    rw [List.append_assoc, List.singleton_append, List.nodup_middle]
    refine List.nodup_cons.mpr ⟨?_, ?_⟩
    · intro hmem
      have := hallIds_lt st.nextId (by rw [allIds_cons]; exact hmem)
      omega
    · have h2 := hinv.hNodup
      rwa [allIds_cons] at h2

theorem unsub_w_of_inv {α : Type} {st : DataStore α} {h : Handle} {hs : List Handle}
    (hinv : Inv st (h :: hs)) :
    ∀ n ∈ setList h.namesArr,
      h.cbIds.length ≤ cbCount st n ∧
      alookup n (unsubscribe st h).1._w
        = (if cbCount st n = h.cbIds.length then none
            else some ((cbCount st n : Int) - (h.cbIds.length : Int))) := by
  intro n hn
  have hw : (unsubscribe st h).1._w
      = h.cbIds.foldl (fun w _ => decAll (setList h.namesArr) w) st._w :=
    unsubFold_w (setList h.namesArr) h.cbIds st
  have hidnd : h.cbIds.Nodup := by
    have h2 := hinv.hNodup
    rw [allIds_cons] at h2
    exact (List.nodup_append.mp h2).1
  have hsub : ∀ i ∈ h.cbIds, ∃ c2 ∈ st._cbs, RegCb.id c2 = i
      ∧ ((RegCb.names c2).contains n = true) := by
    intro i hi
    rcases hinv.hIds h (List.mem_cons_self h hs) i hi with ⟨c2, hc2, h1, h2⟩
    exact ⟨c2, hc2, h1, by rw [h2]; exact contains_iff_mem.mpr hn⟩
  rcases countP_filter_not_mem_ids (fun c2 => (RegCb.names c2).contains n) h.cbIds
    st._cbs hinv.idsNodup hidnd hsub with ⟨_, hle⟩
  have hk : h.cbIds.length ≤ cbCount st n := by
    rw [cbCount_eq_countP]
    exact hle
  refine ⟨hk, ?_⟩
  rcases Nat.eq_zero_or_pos h.cbIds.length with hk0 | hkpos
  · have hnil : h.cbIds = [] := List.length_eq_zero.mp hk0
    rw [hw, hnil]
    simp only [List.foldl_nil, List.length_nil, Nat.cast_zero, sub_zero]
    exact hinv.counts n
  · have hcpos : 0 < cbCount st n := lt_of_lt_of_le hkpos hk
    have hold := hinv.counts n
    rw [if_neg (by omega)] at hold
    rw [hw]
    rw [alookup_decRounds (nodup_setList h.namesArr) hn h.cbIds st._w
      ((cbCount st n : Nat) : Int) hold (by exact_mod_cast hcpos) (by exact_mod_cast hk)]
    by_cases hEq : cbCount st n = h.cbIds.length
    · rw [if_pos (by exact_mod_cast hEq), if_pos hEq]
    · have h1 : ¬ ((cbCount st n : Int) = (h.cbIds.length : Int)) := by
        exact_mod_cast hEq
      rw [if_neg h1, if_neg hEq]

theorem inv_unsub {α : Type} {st : DataStore α} {h : Handle} {hs : List Handle}
    (hinv : Inv st (h :: hs)) :
    Inv (unsubscribe st h).1 ((unsubscribe st h).2 :: hs) := by
  have hcbs : (unsubscribe st h).1._cbs
      = st._cbs.filter (fun c => decide (RegCb.id c ∉ h.cbIds)) :=
    unsubFold_cbs (setList h.namesArr) h.cbIds st
  have hw : (unsubscribe st h).1._w
      = h.cbIds.foldl (fun w _ => decAll (setList h.namesArr) w) st._w :=
    unsubFold_w (setList h.namesArr) h.cbIds st
  have hnext : (unsubscribe st h).1.nextId = st.nextId :=
    unsubFold_nextId (setList h.namesArr) h.cbIds st
  have hidnd : h.cbIds.Nodup := by
    have h2 := hinv.hNodup
    rw [allIds_cons] at h2
    exact (List.nodup_append.mp h2).1
  have hdisj : ∀ i ∈ allIds hs, i ∉ h.cbIds := by
    have h2 := hinv.hNodup
    rw [allIds_cons] at h2
    have hd3 := (List.nodup_append.mp h2).2.2
    intro i hi hih
    exact hd3 hih hi
  have hnameOf : ∀ c2 ∈ st._cbs, RegCb.id c2 ∈ h.cbIds →
      RegCb.names c2 = setList h.namesArr := by
    intro c2 hc2 hic
    rcases hinv.hIds h (List.mem_cons_self h hs) _ hic with ⟨c', hc', h1, h2⟩
    have he : c' = c2 := List.inj_on_of_nodup_map hinv.idsNodup hc' hc2 h1
    exact he ▸ h2
  have hsub : ∀ n, n ∈ setList h.namesArr →
      ∀ i ∈ h.cbIds, ∃ c2 ∈ st._cbs, RegCb.id c2 = i
        ∧ ((RegCb.names c2).contains n = true) := by
    intro n hn i hi
    rcases hinv.hIds h (List.mem_cons_self h hs) i hi with ⟨c2, hc2, h1, h2⟩
    exact ⟨c2, hc2, h1, by rw [h2]; exact contains_iff_mem.mpr hn⟩
  constructor
  · intro n
    by_cases hn : n ∈ setList h.namesArr
    · rcases countP_filter_not_mem_ids (fun c2 => (RegCb.names c2).contains n) h.cbIds
        st._cbs hinv.idsNodup hidnd (hsub n hn) with ⟨hcp, hle⟩
      have hcountnew : cbCount (unsubscribe st h).1 n
          = cbCount st n - h.cbIds.length := by
        rw [cbCount_eq_countP, hcbs, hcp, ← cbCount_eq_countP]
      rcases unsub_w_of_inv hinv n hn with ⟨hk, hval⟩
      rw [hval, hcountnew]
      by_cases hEq : cbCount st n = h.cbIds.length
      · rw [if_pos hEq, if_pos (by omega)]
      · rw [if_neg hEq, if_neg (by omega)]
        congr 1
        have hk2 : h.cbIds.length ≤ cbCount st n := hk
        push_cast [Nat.cast_sub hk2]
        ring
    · have hnone : ∀ c2 ∈ st._cbs, RegCb.id c2 ∈ h.cbIds →
          ((RegCb.names c2).contains n) = false := by
        intro c2 hc2 hic
        rw [hnameOf c2 hc2 hic]
        by_contra hcon
        exact hn (contains_iff_mem.mp (by simpa using hcon))
      have hcnew : cbCount (unsubscribe st h).1 n = cbCount st n := by
        rw [cbCount_eq_countP, hcbs, countP_filter_of_none _ _ _ hnone,
          ← cbCount_eq_countP]
      rw [hw, alookup_decRounds_not_mem hn h.cbIds st._w, hcnew]
      exact hinv.counts n
  · intro c2 hc2
    have hc2' : c2 ∈ st._cbs := List.mem_of_mem_filter (hcbs ▸ hc2)
    rw [hnext]
    exact hinv.idsLt c2 hc2'
  · have hsubl : List.Sublist ((unsubscribe st h).1._cbs) st._cbs := by
      rw [hcbs]
      exact List.filter_sublist st._cbs
    exact hinv.idsNodup.sublist (hsubl.map RegCb.id)
  · intro g hg i hi
    rcases List.mem_cons.mp hg with rfl | hg'
    · cases hi
    · rcases hinv.hIds g (List.mem_cons_of_mem _ hg') i hi with ⟨c2, hc2, h1, h2⟩
      refine ⟨c2, ?_, h1, h2⟩
      rw [hcbs]
      refine List.mem_filter.mpr ⟨hc2, ?_⟩
      simp only [decide_eq_true_eq]
      intro hbad
      exact hdisj i (mem_allIds.mpr ⟨g, hg', hi⟩) (h1 ▸ hbad)
  · show (allIds ((unsubscribe st h).2 :: hs)).Nodup
    rw [allIds_cons]
    show (([] : List Nat) ++ allIds hs).Nodup
    rw [List.nil_append]
    have h2 := hinv.hNodup
    rw [allIds_cons] at h2
    exact (List.nodup_append.mp h2).2.1

theorem inv_of_reachable {α : Type} [DecidableEq α] {st : DataStore α}
    {hs : List Handle} (h : Reachable st hs) : Inv st hs := by
  induction h with
  | empty => exact inv_empty
  | watch st hs names _ ih => exact inv_cons_mkWatch ih names
  | add st hs items _ ih =>
      have hfr := add_frame st items
      exact inv_cons_mkWatch (inv_frame hfr.1 hfr.2.1 hfr.2.2 ih)
        (items.map Resource.getName)
  | del st hs name _ ih => refine inv_frame ?_ ?_ ?_ ih <;> rfl
  | gc st hs _ ih => refine inv_frame ?_ ?_ ?_ ih <;> rfl
  | regPlain st h hs _ ih =>
      exact inv_register ih (RegCb.plain st.nextId (setList h.namesArr)) rfl rfl
  | regArray st h hs _ ih =>
      exact inv_register ih (RegCb.array st.nextId (setList h.namesArr) h.namesArr) rfl rfl
  | unsub st h hs _ ih => exact inv_unsub ih
  | perm st hs hs' _ hp ih => exact inv_perm hp ih

theorem wkeys_of_reachable {α : Type} [DecidableEq α] {st : DataStore α}
    {hs : List Handle} (h : Reachable st hs) : (st._w.map Prod.fst).Nodup := by
  induction h with
  | empty => simp [DataStore.empty]
  | watch st hs names _ ih => exact ih
  | add st hs items _ ih =>
      have hfr := add_frame st items
      rw [show (st.add items).1._w = st._w from hfr.2.1]
      exact ih
  | del st hs name _ ih => exact ih
  | gc st hs _ ih => exact ih
  | regPlain st h hs _ ih => exact keys_incAll (setList h.namesArr) st._w ih
  | regArray st h hs _ ih => exact keys_incAll (setList h.namesArr) st._w ih
  | unsub st h hs _ ih =>
      rw [show (unsubscribe st h).1._w
          = h.cbIds.foldl (fun w _ => decAll (setList h.namesArr) w) st._w from
        unsubFold_w (setList h.namesArr) h.cbIds st]
      exact keys_decRounds (setList h.namesArr) h.cbIds st._w ih
  | perm st hs hs' _ hp ih => exact ih

/-! Claim theorems. -/

/-- Claim C3: adding a resource whose `toObject` snapshot deep-equals the
entry already stored under the same name is silent — the store is unchanged,
no callback is invoked, and `get` afterwards still returns the stored
resource (so `add` is idempotent up to structural equality of snapshots). -/
theorem c3_add_idempotent {α : Type} [DecidableEq α] (st : DataStore α)
    (r r' : Resource α) (n : String) (hn : r'.getName = n)
    (hd : alookup n st._d = some r) (heq : r'.toObject = r.toObject) :
    (st.add [r']).1 = st ∧ (st.add [r']).2.2 = [] ∧ (st.add [r']).1.get n = some r := by
  have hl : alookup r'.getName st._d = some r := by rw [hn]; exact hd
  have he : isResourceEqual r' r = true := by simp [isResourceEqual, heq]
  have h1 : addOne st r' = (st, []) := by simp [addOne, hl, he]
  have h2 : st.add [r'] = (st, mkWatch [r'.getName], []) := by
    simp [DataStore.add, addStep, h1]
  refine ⟨by rw [h2], by rw [h2], ?_⟩
  rw [h2]
  exact hd

/-- Witness for C3 at a concrete store: the entry `n` holds snapshot `5`,
adding another resource named `n` with snapshot `5` changes nothing. -/
theorem c3_add_idempotent_witness :
    ((DataStore.mk [("n", ⟨"n", 5⟩)] [] [] 0 : DataStore Nat).add [⟨"n", 5⟩]).1
        = DataStore.mk [("n", ⟨"n", 5⟩)] [] [] 0 ∧
      ((DataStore.mk [("n", ⟨"n", 5⟩)] [] [] 0 : DataStore Nat).add [⟨"n", 5⟩]).2.2 = [] ∧
      ((DataStore.mk [("n", ⟨"n", 5⟩)] [] [] 0 : DataStore Nat).add [⟨"n", 5⟩]).1.get "n"
        = some ⟨"n", 5⟩ :=
  c3_add_idempotent (DataStore.mk [("n", ⟨"n", 5⟩)] [] [] 0) ⟨"n", 5⟩ ⟨"n", 5⟩ "n"
    rfl (by decide) rfl

/-- Claim C4 as stated is false: `del` on an absent name is not a complete
no-op, because the source still calls `_publish(name, undefined)`.  At this
concrete store a plain watcher on `n` is registered and no entry `n` exists,
yet `del("n")` invokes the callback with `("n", undefined)`. -/
theorem c4_counterexample :
    (alookup "n" ((registerPlain (DataStore.empty Nat) (mkWatch ["n"])).1)._d = none) ∧
      (((registerPlain (DataStore.empty Nat) (mkWatch ["n"])).1.del "n").2
        = [Event.plain 0 "n" none]) := by
  constructor
  · rfl
  · decide

/-- Claim C4 (amended): `del` on an absent name leaves the entire store state
unchanged, but still publishes `(name, undefined)` to the registered
callbacks under the code's matching rule (rather than notifying no one); and
`garbageCollect` when every entry is retained changes nothing. -/
theorem c4_del_absent_amended {α : Type} (st : DataStore α) (n : String)
    (hd : alookup n st._d = none)
    (hgc : ∀ kv ∈ st._d,
      findTruthy (watchNames kv.1) (fun m => (alookup m st._w).isSome) = true) :
    (st.del n).1 = st ∧ (st.del n).2 = publishEvents st n none ∧
      st.garbageCollect = st := by
  have hadel : adel n st._d = st._d := adel_of_alookup_none hd
  have h1 : (st.del n).1 = st := by
    show { st with _d := adel n st._d } = st
    rw [hadel]
  refine ⟨h1, ?_, ?_⟩
  · show publishEvents { st with _d := adel n st._d } n none = publishEvents st n none
    rw [show ({ st with _d := adel n st._d } : DataStore α) = st from h1]
  · show { st with _d := st._d.filter _ } = st
    rw [List.filter_eq_self.mpr hgc]

/-- Witness for amended C4: with a watcher on `n` registered and no entry,
`del("n")` keeps the state and publishes to the watcher; GC is the identity
because there is no entry at all. -/
theorem c4_del_absent_amended_witness :
    (((registerPlain (DataStore.empty Nat) (mkWatch ["n"])).1.del "n").1
        = (registerPlain (DataStore.empty Nat) (mkWatch ["n"])).1) ∧
      (((registerPlain (DataStore.empty Nat) (mkWatch ["n"])).1.del "n").2
        = publishEvents (registerPlain (DataStore.empty Nat) (mkWatch ["n"])).1 "n" none) ∧
      ((registerPlain (DataStore.empty Nat) (mkWatch ["n"])).1.garbageCollect
        = (registerPlain (DataStore.empty Nat) (mkWatch ["n"])).1) :=
  c4_del_absent_amended (registerPlain (DataStore.empty Nat) (mkWatch ["n"])).1 "n"
    rfl (by decide)

/-- Claim C9: `watch` (and the handle `add` returns) registers nothing by
itself — the store is untouched and the handle starts with no callbacks —
so an unused handle protects nothing: an entry none of whose ancestor
prefixes is watched is still removed by `garbageCollect`. -/
theorem c9_unused_watch_no_protection {α : Type} [DecidableEq α] (st : DataStore α)
    (n : String) (r : Resource α) (names : List String)
    (_hd : alookup n st._d = some r)
    (hw : ∀ p ∈ watchNames n, alookup p st._w = none) :
    (st.watch names).1 = st ∧ ((st.watch names).2).cbIds = [] ∧
      (∀ items : List (Resource α), ((st.add items).2.1).cbIds = []) ∧
      alookup n ((st.watch names).1.garbageCollect)._d = none := by
  refine ⟨rfl, rfl, fun items => rfl, ?_⟩
  show alookup n st.garbageCollect._d = none
  have hfind : (watchNames n).find? (fun m => (alookup m st._w).isSome) = none := by
    refine List.find?_eq_none.mpr ?_
    intro p hp
    simp [hw p hp]
  have hq : findTruthy (watchNames n) (fun m => (alookup m st._w).isSome) = false := by
    unfold findTruthy
    rw [hfind]
  show alookup n (st._d.filter
    (fun kv => findTruthy (watchNames kv.1) (fun m => (alookup m st._w).isSome))) = none
  rw [alookup_filter_key (fun k => findTruthy (watchNames k)
    (fun m => (alookup m st._w).isSome)) n st._d, hq]
  simp

/-- Witness for C9: entry `n` exists, nothing is watched; an unused handle on
`n` is created and GC still removes the entry. -/
theorem c9_unused_watch_no_protection_witness :
    ((DataStore.mk [("n", ⟨"n", 5⟩)] [] [] 0 : DataStore Nat).watch ["n"]).1
        = DataStore.mk [("n", ⟨"n", 5⟩)] [] [] 0 ∧
      (((DataStore.mk [("n", ⟨"n", 5⟩)] [] [] 0 : DataStore Nat).watch ["n"]).2).cbIds = [] ∧
      (∀ items : List (Resource Nat),
        (((DataStore.mk [("n", ⟨"n", 5⟩)] [] [] 0 : DataStore Nat).add items).2.1).cbIds = []) ∧
      alookup "n"
        (((DataStore.mk [("n", ⟨"n", 5⟩)] [] [] 0 : DataStore Nat).watch
          ["n"]).1.garbageCollect)._d = none :=
  c9_unused_watch_no_protection (DataStore.mk [("n", ⟨"n", 5⟩)] [] [] 0) "n" ⟨"n", 5⟩
    ["n"] rfl (by decide)

/-- Claim C1 as stated is false at the empty-name edge: here a plain watcher
is registered with watched set S containing the empty string; a `del` of the
empty name has the empty string as an ancestor prefix belonging to S (the
spec rule `specMatch` holds), yet no callback is invoked — the source tests
the truthiness of the string returned by `find`, and the empty string is
falsy. -/
theorem c1_counterexample :
    (RegCb.plain 0 [""] ∈ ((registerPlain (DataStore.empty Nat) (mkWatch [""])).1)._cbs) ∧
      specMatch [""] "" = true ∧
      (((registerPlain (DataStore.empty Nat) (mkWatch [""])).1.del "").2 = []) := by
  refine ⟨by decide, by decide, by decide⟩

/-- Claim C1 (amended): a change to name N — a `del`, or an `add` that is not
an equal-snapshot skip — is delivered to a registered plain watcher with
watched set S exactly when `find` over N's ancestor prefixes returns a
truthy (non-empty) member of S; when no matched prefix is the empty string
this coincides with the spec's ancestor-membership rule, so watching a
coarse name still observes descendants and never conversely. -/
theorem c1_plain_match_amended {α : Type} [DecidableEq α] (st : DataStore α)
    (i : Nat) (S : List String) (hnd : (st._cbs.map RegCb.id).Nodup)
    (hc : RegCb.plain i S ∈ st._cbs) (N : String) (item : Resource α)
    (hname : item.getName = N)
    (hch : ∀ ex, alookup N st._d = some ex → isResourceEqual item ex = false) :
    (Event.plain i N none ∈ (st.del N).2 ↔
      findTruthy (watchNames N) (fun m => S.contains m) = true) ∧
    (Event.plain i N (some item) ∈ (addOne st item).2 ↔
      findTruthy (watchNames N) (fun m => S.contains m) = true) := by
  constructor
  · exact mem_publish_plain { st with _d := adel N st._d } hnd hc N none
  · rcases hl : alookup N st._d with _ | ex
    · have h1 : addOne st item =
          ({ st with _d := aset N item st._d },
            publishEvents { st with _d := aset N item st._d } N (some item)) := by
        subst hname
        simp [addOne, hl]
      rw [h1]
      exact mem_publish_plain { st with _d := aset N item st._d } hnd hc
        N (some item)
    · have hne := hch ex hl
      have h1 : addOne st item =
          ({ st with _d := aset N item st._d },
            publishEvents { st with _d := aset N item st._d } N (some item)) := by
        subst hname
        simp [addOne, hl, hne]
      rw [h1]
      exact mem_publish_plain { st with _d := aset N item st._d } hnd hc
        N (some item)

/-- Witness for amended C1: a watcher on `a` observes an `add` of the
descendant `a/b/c`. -/
theorem c1_plain_match_amended_witness :
    Event.plain 0 "a/b/c" (some ⟨"a/b/c", 5⟩) ∈
      (addOne (registerPlain (DataStore.empty Nat) (mkWatch ["a"])).1 ⟨"a/b/c", 5⟩).2 := by
  have h := c1_plain_match_amended (registerPlain (DataStore.empty Nat) (mkWatch ["a"])).1
    0 ["a"] (by decide) (by decide) "a/b/c" ⟨"a/b/c", 5⟩ rfl
    (by intro ex hex; simp [alookup] at hex)
  exact h.2.mpr (by decide)

/-- Claim C7 as stated is false at the same empty-name edge as C1: a stored
resource under the empty name is replaced by one with a different snapshot
while a plain watcher whose set contains the empty name is registered; the
spec's matching rule holds for the change, yet zero notifications are
delivered. -/
theorem c7_counterexample :
    (RegCb.plain 0 [""]
        ∈ ((registerPlain ((DataStore.empty Nat).add [⟨"", 0⟩]).1 (mkWatch [""])).1)._cbs) ∧
      specMatch [""] "" = true ∧
      (alookup ""
        ((registerPlain ((DataStore.empty Nat).add [⟨"", 0⟩]).1 (mkWatch [""])).1)._d
        = some ⟨"", 0⟩) ∧
      ((⟨"", 1⟩ : Resource Nat).toObject ≠ (⟨"", 0⟩ : Resource Nat).toObject) ∧
      (((registerPlain ((DataStore.empty Nat).add [⟨"", 0⟩]).1 (mkWatch [""])).1.add
          [⟨"", 1⟩]).2.2 = []) := by
  refine ⟨by decide, by decide, by decide, by decide, by decide⟩

/-- Claim C7 (amended): replacing a stored resource by one with the same
name and a different snapshot stores the new resource and delivers exactly
one notification `(n, r2)` to each registered plain callback whose set
matches `n` under the code's truthy-`find` rule (and zero to the others),
before `add` returns. -/
theorem c7_replace_amended {α : Type} [DecidableEq α] (st : DataStore α) (n : String)
    (r r2 : Resource α) (i : Nat) (S : List String)
    (hd : alookup n st._d = some r) (hn : r2.getName = n)
    (hne : r2.toObject ≠ r.toObject)
    (hnd : (st._cbs.map RegCb.id).Nodup) (hc : RegCb.plain i S ∈ st._cbs) :
    ((st.add [r2]).1.get n = some r2) ∧
    (((st.add [r2]).2.2).countP (fun e => decide (Event.id e = i)) =
      (if findTruthy (watchNames n) (fun m => S.contains m) then 1 else 0)) ∧
    (findTruthy (watchNames n) (fun m => S.contains m) = true →
      Event.plain i n (some r2) ∈ (st.add [r2]).2.2) := by
  have hres : isResourceEqual r2 r = false := by
    simp [isResourceEqual]
    exact hne
  have h1 : addOne st r2 =
      ({ st with _d := aset n r2 st._d },
        publishEvents { st with _d := aset n r2 st._d } n (some r2)) := by
    subst hn
    simp [addOne, hd, hres]
  have h2 : st.add [r2] =
      (({ st with _d := aset n r2 st._d } : DataStore α), mkWatch [r2.getName],
        publishEvents { st with _d := aset n r2 st._d } n (some r2)) := by
    simp [DataStore.add, addStep, h1]
  refine ⟨?_, ?_, ?_⟩
  · rw [h2]
    show alookup n (aset n r2 st._d) = some r2
    exact alookup_aset_self n r2 st._d
  · rw [h2]
    have h3 := countP_publish_id { st with _d := aset n r2 st._d } hnd hc
      n (some r2)
    rw [show RegCb.id (RegCb.plain i S) = i from rfl] at h3
    rw [h3]
    by_cases hcond : findTruthy (watchNames n) (fun m => S.contains m) = true
    · simp [fireCb, hcond]
    · simp [fireCb, hcond]
  · intro hcond
    rw [h2]
    exact (mem_publish_plain { st with _d := aset n r2 st._d } hnd hc
      n (some r2)).mpr hcond

/-- Witness for amended C7: a watcher on `a` sees exactly one notification
when the entry `a` is replaced, and the new value is stored. -/
theorem c7_replace_amended_witness :
    (((registerPlain ((DataStore.empty Nat).add [⟨"a", 0⟩]).1 (mkWatch ["a"])).1.add
        [⟨"a", 1⟩]).1.get "a" = some ⟨"a", 1⟩) ∧
      ((((registerPlain ((DataStore.empty Nat).add [⟨"a", 0⟩]).1 (mkWatch ["a"])).1.add
          [⟨"a", 1⟩]).2.2).countP (fun e => decide (Event.id e = 0)) = 1) ∧
      (Event.plain 0 "a" (some ⟨"a", 1⟩)
        ∈ ((registerPlain ((DataStore.empty Nat).add [⟨"a", 0⟩]).1 (mkWatch ["a"])).1.add
          [⟨"a", 1⟩]).2.2) := by
  have h := c7_replace_amended
    (registerPlain ((DataStore.empty Nat).add [⟨"a", 0⟩]).1 (mkWatch ["a"])).1
    "a" ⟨"a", 0⟩ ⟨"a", 1⟩ 0 ["a"] (by decide) rfl (by decide) (by decide) (by decide)
  refine ⟨h.1, ?_, h.2.2 (by decide)⟩
  rw [h.2.1]
  decide

/-- Claim C2 as stated is false at the empty-name edge: the empty name is
stored and watched with a positive count — an ancestor prefix of the key
(the key itself) is present in `watchedNames` with positive count — yet
`garbageCollect` removes the entry, because the retention check tests the
truthiness of the string returned by `find` and the empty string is falsy. -/
theorem c2_counterexample :
    (alookup ""
        (((registerPlain (DataStore.empty Nat) (mkWatch [""])).1.add [⟨"", 7⟩]).1)._w
      = some 1) ∧
      (alookup ""
        (((registerPlain (DataStore.empty Nat) (mkWatch [""])).1.add [⟨"", 7⟩]).1)._d
      = some ⟨"", 7⟩) ∧
      ("" ∈ watchNames "") ∧
      (alookup ""
        ((((registerPlain (DataStore.empty Nat) (mkWatch [""])).1.add
          [⟨"", 7⟩]).1).garbageCollect)._d = none) := by
  refine ⟨by decide, by decide, by decide, by decide⟩

/-- Claim C2 (amended): over stores whose reference counts are positive (as
the bookkeeping guarantees), `garbageCollect` retains exactly the keys whose
ancestor-prefix chain has a truthy `find` against the watched names — i.e. a
key survives iff the first of its ancestor prefixes carrying a positive
count is non-empty — and it touches neither the callback set nor the counts
(the source's sweep contains no `_publish` call, so no callback is
invoked). -/
theorem c2_gc_amended {α : Type} (st : DataStore α)
    (hpos : ∀ p ∈ st._w, 0 < p.2) (k : String) :
    (alookup k st.garbageCollect._d =
      (if findTruthy (watchNames k) (fun m => decide (0 < (alookup m st._w).getD 0))
        then alookup k st._d else none)) ∧
    st.garbageCollect._cbs = st._cbs ∧ st.garbageCollect._w = st._w := by
  have hpt : ∀ m, (alookup m st._w).isSome
      = decide (0 < (alookup m st._w).getD 0) := by
    intro m
    rcases hm : alookup m st._w with _ | c
    · simp
    · have hcpos := hpos (m, c) (alookup_mem hm)
      simp only [Option.isSome_some, Option.getD_some]
      simp [hcpos]
  have hfun : (fun m => (alookup m st._w).isSome)
      = (fun m => decide (0 < (alookup m st._w).getD 0)) := funext hpt
  refine ⟨?_, rfl, rfl⟩
  show alookup k (st._d.filter
    (fun kv => findTruthy (watchNames kv.1) (fun m => (alookup m st._w).isSome))) = _
  rw [alookup_filter_key
    (fun k2 => findTruthy (watchNames k2) (fun m => (alookup m st._w).isSome)) k st._d]
  rw [hfun]

/-- Witness for amended C2, running the claim's two-handle scenario through
the theorem: with one of two subscriptions on `n` gone the entry survives
GC, and after the second unsubscribe GC removes it while callbacks and
counts stay untouched. -/
theorem c2_gc_amended_witness :
    alookup "n"
        (DataStore.garbageCollect
          (unsubscribe
            (registerPlain
              (registerPlain ((DataStore.empty Nat).add [⟨"n", 5⟩]).1 (mkWatch ["n"])).1
              (mkWatch ["n"])).1
            (registerPlain ((DataStore.empty Nat).add [⟨"n", 5⟩]).1 (mkWatch ["n"])).2).1)._d
        = some ⟨"n", 5⟩ ∧
    alookup "n"
        (DataStore.garbageCollect
          (unsubscribe
            (unsubscribe
              (registerPlain
                (registerPlain ((DataStore.empty Nat).add [⟨"n", 5⟩]).1 (mkWatch ["n"])).1
                (mkWatch ["n"])).1
              (registerPlain ((DataStore.empty Nat).add [⟨"n", 5⟩]).1 (mkWatch ["n"])).2).1
            (registerPlain
              (registerPlain ((DataStore.empty Nat).add [⟨"n", 5⟩]).1 (mkWatch ["n"])).1
              (mkWatch ["n"])).2).1)._d
        = none := by
  constructor
  · exact ((c2_gc_amended
      (unsubscribe
        (registerPlain
          (registerPlain ((DataStore.empty Nat).add [⟨"n", 5⟩]).1 (mkWatch ["n"])).1
          (mkWatch ["n"])).1
        (registerPlain ((DataStore.empty Nat).add [⟨"n", 5⟩]).1 (mkWatch ["n"])).2).1
      (by decide) "n").1).trans (by decide)
  · exact ((c2_gc_amended
      (unsubscribe
        (unsubscribe
          (registerPlain
            (registerPlain ((DataStore.empty Nat).add [⟨"n", 5⟩]).1 (mkWatch ["n"])).1
            (mkWatch ["n"])).1
          (registerPlain ((DataStore.empty Nat).add [⟨"n", 5⟩]).1 (mkWatch ["n"])).2).1
        (registerPlain
          (registerPlain ((DataStore.empty Nat).add [⟨"n", 5⟩]).1 (mkWatch ["n"])).1
          (mkWatch ["n"])).2).1
      (by decide) "n").1).trans (by decide)

/-- Claim C5: an array watcher registered for name list L (its filter set is
the deduplicated L) fires exactly when the changed name is a member of L —
ancestor-prefix matches do not trigger it — and the array it receives holds
the currently present resources of the original list L, in L's order, with
absent names skipped; in particular this holds for the events of `del`. -/
theorem c5_array_watcher {α : Type} (st : DataStore α) (i : Nat) (L : List String)
    (hnd : (st._cbs.map RegCb.id).Nodup)
    (hc : RegCb.array i (setList L) L ∈ st._cbs) :
    (∀ name data arr, Event.arr i arr name data ∈ publishEvents st name data ↔
        (name ∈ L ∧ arr = L.filterMap (fun m => st.get m))) ∧
    (∀ name arr, Event.arr i arr name none ∈ (st.del name).2 ↔
        (name ∈ L ∧ arr = L.filterMap (fun m => (st.del name).1.get m))) := by
  have hmemc : ∀ name, ((setList L).contains name = true) ↔ name ∈ L := by
    intro name
    constructor
    · intro hh
      exact (mem_setList name L).mp (by simpa using hh)
    · intro hh
      simpa using (mem_setList name L).mpr hh
  constructor
  · intro name data arr
    rw [mem_publish_array st hnd hc name data arr]
    exact and_congr (hmemc name) Iff.rfl
  · intro name arr
    rw [show (st.del name).2
      = publishEvents { st with _d := adel name st._d } name none from rfl]
    rw [mem_publish_array { st with _d := adel name st._d } hnd hc name none arr]
    exact and_congr (hmemc name) Iff.rfl

/-- Witness for C5, running the claim's scenario: watch `x`,`y` with an
array watcher, add resources `x` and `y`, then delete `x`; the array
delivered on the `del` contains only the entry for `y`. -/
theorem c5_array_watcher_witness :
    Event.arr 0 [⟨"y", 2⟩] "x" none ∈
      (((registerArray (DataStore.empty Nat) (mkWatch ["x", "y"])).1.add
        [⟨"x", 1⟩, ⟨"y", 2⟩]).1.del "x").2 := by
  have h := c5_array_watcher
    (((registerArray (DataStore.empty Nat) (mkWatch ["x", "y"])).1.add
      [⟨"x", 1⟩, ⟨"y", 2⟩]).1) 0 ["x", "y"] (by decide) (by decide)
  exact (h.2 "x" [⟨"y", 2⟩]).mpr (by decide)

/-- Claim C10: when the watch list contains duplicates, the reference count
of a listed name is bumped exactly once per registration (the loop runs over
the deduplicated set), while the registered array callback keeps the
original list, so the array it builds draws one entry per occurrence —
duplicates included — and matching against the deduplicated set is the same
as matching against the original list. -/
theorem c10_duplicate_names {α : Type} (st : DataStore α) (h : Handle) (n : String)
    (hmem : n ∈ h.namesArr) :
    (alookup n ((registerArray st h).1)._w = some ((alookup n st._w).getD 0 + 1)) ∧
    ((registerArray st h).1._cbs
      = st._cbs ++ [RegCb.array st.nextId (setList h.namesArr) h.namesArr]) ∧
    ((registerPlain st h).1._cbs
      = st._cbs ++ [RegCb.plain st.nextId (setList h.namesArr)]) ∧
    (∀ name data, name ∈ h.namesArr →
      fireCb (registerArray st h).1
          (RegCb.array st.nextId (setList h.namesArr) h.namesArr) name data
        = some (Event.arr st.nextId
            (h.namesArr.filterMap (fun m => (registerArray st h).1.get m)) name data)) ∧
    (∀ m, m ∈ setList h.namesArr ↔ m ∈ h.namesArr) := by
  refine ⟨?_, rfl, rfl, ?_, fun m => mem_setList m h.namesArr⟩
  · have hmem' : n ∈ setList h.namesArr := (mem_setList n h.namesArr).mpr hmem
    exact alookup_incAll_mem (nodup_setList h.namesArr) hmem' st._w
  · intro name data hname
    have hm2 : name ∈ setList h.namesArr := (mem_setList name h.namesArr).mpr hname
    simp [fireCb, hm2]

/-- Witness for C10 at `watch("x","x")`: one registration bumps the count of
`x` to one only, while the array built for a change to `x` lists the present
resource twice (once per occurrence). -/
theorem c10_duplicate_names_witness :
    (alookup "x"
      ((registerArray (DataStore.mk [("x", ⟨"x", 7⟩)] [] [] 0 : DataStore Nat)
        (mkWatch ["x", "x"])).1)._w = some 1) ∧
    (fireCb (registerArray (DataStore.mk [("x", ⟨"x", 7⟩)] [] [] 0 : DataStore Nat)
        (mkWatch ["x", "x"])).1
        (RegCb.array 0 (setList ["x", "x"]) ["x", "x"]) "x" none
      = some (Event.arr 0 [⟨"x", 7⟩, ⟨"x", 7⟩] "x" none)) := by
  have h := c10_duplicate_names
    (DataStore.mk [("x", ⟨"x", 7⟩)] [] [] 0 : DataStore Nat) (mkWatch ["x", "x"])
    "x" (by decide)
  constructor
  · exact (h.1).trans (by decide)
  · exact (h.2.2.2.1 "x" none (by decide)).trans (by decide)

/-- Claim C6: `unsubscribe` removes exactly the callbacks registered through
the handle, leaves the entries untouched, empties the handle, decrements
each watched name's count once per removed callback — deleting a counter
that reaches zero — and leaves other names' counts alone; afterwards no
notification of any later `_publish`, `del` or `add` carries one of the
handle's callback ids, while every other callback's notifications are
exactly as before. -/
theorem c6_unsubscribe_precision {α : Type} [DecidableEq α] (st : DataStore α)
    (h : Handle)
    (hcnt : ∀ n ∈ setList h.namesArr, ∃ c : Int, alookup n st._w = some c ∧
      0 < c ∧ (h.cbIds.length : Int) ≤ c) :
    ((unsubscribe st h).1._cbs
      = st._cbs.filter (fun c => decide (RegCb.id c ∉ h.cbIds))) ∧
    ((unsubscribe st h).1._d = st._d) ∧
    ((unsubscribe st h).2.cbIds = []) ∧
    (∀ n ∈ setList h.namesArr, ∀ c : Int, alookup n st._w = some c →
      alookup n (unsubscribe st h).1._w
        = (if c = (h.cbIds.length : Int) then none else some (c - h.cbIds.length))) ∧
    (∀ n, n ∉ setList h.namesArr →
      alookup n (unsubscribe st h).1._w = alookup n st._w) ∧
    (∀ name data, publishEvents (unsubscribe st h).1 name data
      = (publishEvents st name data).filter (fun e => decide (Event.id e ∉ h.cbIds))) ∧
    (∀ name, ((unsubscribe st h).1.del name).2
      = ((st.del name).2).filter (fun e => decide (Event.id e ∉ h.cbIds))) ∧
    (∀ item : Resource α, (addOne (unsubscribe st h).1 item).2
      = ((addOne st item).2).filter (fun e => decide (Event.id e ∉ h.cbIds))) := by
  have hcbs : (unsubscribe st h).1._cbs
      = st._cbs.filter (fun c => decide (RegCb.id c ∉ h.cbIds)) :=
    unsubFold_cbs (setList h.namesArr) h.cbIds st
  have hdpr : (unsubscribe st h).1._d = st._d :=
    unsubFold_d (setList h.namesArr) h.cbIds st
  refine ⟨hcbs, hdpr, rfl, ?_, ?_, ?_, ?_, ?_⟩
  · intro n hn c hcl
    rcases hcnt n hn with ⟨c', hcl', hpos', hlen'⟩
    rw [hcl] at hcl'
    injection hcl' with hcc
    subst hcc
    rw [show (unsubscribe st h).1._w
        = h.cbIds.foldl (fun w _ => decAll (setList h.namesArr) w) st._w from
      unsubFold_w (setList h.namesArr) h.cbIds st]
    exact alookup_decRounds (nodup_setList h.namesArr) hn h.cbIds st._w c hcl hpos' hlen'
  · intro n hn
    rw [show (unsubscribe st h).1._w
        = h.cbIds.foldl (fun w _ => decAll (setList h.namesArr) w) st._w from
      unsubFold_w (setList h.namesArr) h.cbIds st]
    exact alookup_decRounds_not_mem hn h.cbIds st._w
  · intro name data
    exact publish_filter_ids (unsubscribe st h).1 st h.cbIds hcbs hdpr name data
  · intro name
    exact publish_filter_ids
      { (unsubscribe st h).1 with _d := adel name (unsubscribe st h).1._d }
      { st with _d := adel name st._d } h.cbIds hcbs
      (by show adel name (unsubscribe st h).1._d = adel name st._d; rw [hdpr]) name none
  · intro item
    have hlook : alookup item.getName (unsubscribe st h).1._d
        = alookup item.getName st._d := by rw [hdpr]
    rcases hl : alookup item.getName st._d with _ | ex
    · have h2 : addOne (unsubscribe st h).1 item
          = ({ (unsubscribe st h).1 with
                _d := aset item.getName item (unsubscribe st h).1._d },
             publishEvents
              { (unsubscribe st h).1 with
                  _d := aset item.getName item (unsubscribe st h).1._d }
              item.getName (some item)) := by
        simp [addOne, hlook.trans hl]
      have h1 : addOne st item
          = ({ st with _d := aset item.getName item st._d },
             publishEvents { st with _d := aset item.getName item st._d }
              item.getName (some item)) := by
        simp [addOne, hl]
      rw [h1, h2]
      exact publish_filter_ids
        { (unsubscribe st h).1 with _d := aset item.getName item (unsubscribe st h).1._d }
        { st with _d := aset item.getName item st._d } h.cbIds hcbs
        (by show aset item.getName item (unsubscribe st h).1._d
              = aset item.getName item st._d
            rw [hdpr]) item.getName (some item)
    · by_cases he : isResourceEqual item ex
      · have h2 : addOne (unsubscribe st h).1 item = ((unsubscribe st h).1, []) := by
          simp [addOne, hlook.trans hl, he]
        have h1 : addOne st item = (st, []) := by
          simp [addOne, hl, he]
        rw [h1, h2]
        rfl
      · have hneb : isResourceEqual item ex = false := by
          simpa using he
        have h2 : addOne (unsubscribe st h).1 item
            = ({ (unsubscribe st h).1 with
                  _d := aset item.getName item (unsubscribe st h).1._d },
               publishEvents
                { (unsubscribe st h).1 with
                    _d := aset item.getName item (unsubscribe st h).1._d }
                item.getName (some item)) := by
          simp [addOne, hlook.trans hl, hneb]
        have h1 : addOne st item
            = ({ st with _d := aset item.getName item st._d },
               publishEvents { st with _d := aset item.getName item st._d }
                item.getName (some item)) := by
          simp [addOne, hl, hneb]
        rw [h1, h2]
        exact publish_filter_ids
          { (unsubscribe st h).1 with _d := aset item.getName item (unsubscribe st h).1._d }
          { st with _d := aset item.getName item st._d } h.cbIds hcbs
          (by show aset item.getName item (unsubscribe st h).1._d
                = aset item.getName item st._d
              rw [hdpr]) item.getName (some item)

/-- Claim C8: across every sequence of public store operations the
reference-count bookkeeping is exact — every count stored in `watchedNames`
equals the number of live registered callbacks watching that name, so every
present count is positive (never negative) and a counter is deleted exactly
when it reaches zero; moreover each registration through a handle increments
every name of the handle's watch set by exactly one, and unsubscribing a
handle performs exactly one matching decrement per registered callback per
name (leaving `none` exactly when the count reaches zero). -/
theorem c8_refcount_invariant {α : Type} [DecidableEq α] (st : DataStore α)
    (hs : List Handle) (hr : Reachable st hs) :
    (∀ n, alookup n st._w
      = (if cbCount st n = 0 then none else some ((cbCount st n : Int)))) ∧
    (∀ p ∈ st._w, 0 < p.2) ∧
    (∀ h : Handle, ∀ n ∈ setList h.namesArr,
      alookup n (registerPlain st h).1._w = some ((alookup n st._w).getD 0 + 1) ∧
      alookup n (registerArray st h).1._w = some ((alookup n st._w).getD 0 + 1)) ∧
    (∀ h ∈ hs, ∀ n ∈ setList h.namesArr,
      h.cbIds.length ≤ cbCount st n ∧
      alookup n (unsubscribe st h).1._w
        = (if cbCount st n = h.cbIds.length then none
            else some ((cbCount st n : Int) - (h.cbIds.length : Int)))) := by
  have hinv := inv_of_reachable hr
  have hkeys := wkeys_of_reachable hr
  refine ⟨hinv.counts, ?_, ?_, ?_⟩
  · intro p hp
    obtain ⟨n2, c2⟩ := p
    have hl : alookup n2 st._w = some c2 := alookup_of_mem_nodup hkeys hp
    have hc := hinv.counts n2
    rw [hl] at hc
    by_cases hz : cbCount st n2 = 0
    · rw [hz, if_pos rfl] at hc
      cases hc
    · rw [if_neg hz] at hc
      injection hc with hc2
      show 0 < c2
      rw [hc2]
      exact_mod_cast Nat.pos_of_ne_zero hz
  · intro h n hn
    exact ⟨alookup_incAll_mem (nodup_setList h.namesArr) hn st._w,
      alookup_incAll_mem (nodup_setList h.namesArr) hn st._w⟩
  · intro h hmem n hn
    have hperm : hs.Perm (h :: hs.erase h) := List.perm_cons_erase hmem
    exact unsub_w_of_inv (inv_perm hperm hinv) n hn

/-- Witness for C8 at a concrete reachable configuration: empty store, one
`watch("n")` handle, one plain registration — the count of `n` is exactly
one. -/
theorem c8_refcount_invariant_witness :
    alookup "n" ((registerPlain ((DataStore.empty Nat).watch ["n"]).1
        ((DataStore.empty Nat).watch ["n"]).2).1)._w = some 1 := by
  have hr2 : Reachable
      (registerPlain ((DataStore.empty Nat).watch ["n"]).1
        ((DataStore.empty Nat).watch ["n"]).2).1
      ((registerPlain ((DataStore.empty Nat).watch ["n"]).1
        ((DataStore.empty Nat).watch ["n"]).2).2 :: []) :=
    Reachable.regPlain _ _ _ (Reachable.watch _ _ ["n"] Reachable.empty)
  have h := c8_refcount_invariant _ _ hr2
  exact (h.1 "n").trans (by decide)

/-- Witness for C6: two watchers on `n` through two handles; unsubscribing
the first leaves the count at one, and a later `del "n"` notifies only the
second watcher's callback. -/
theorem c6_unsubscribe_precision_witness :
    (alookup "n"
        ((unsubscribe
          (registerPlain
            (registerPlain ((DataStore.empty Nat).add [⟨"n", 5⟩]).1 (mkWatch ["n"])).1
            (mkWatch ["n"])).1
          (registerPlain ((DataStore.empty Nat).add [⟨"n", 5⟩]).1 (mkWatch ["n"])).2).1)._w
      = some 1) ∧
    (((unsubscribe
        (registerPlain
          (registerPlain ((DataStore.empty Nat).add [⟨"n", 5⟩]).1 (mkWatch ["n"])).1
          (mkWatch ["n"])).1
        (registerPlain ((DataStore.empty Nat).add [⟨"n", 5⟩]).1 (mkWatch ["n"])).2).1.del
          "n").2
      = [Event.plain 1 "n" none]) := by
  have h := c6_unsubscribe_precision
    (registerPlain
      (registerPlain ((DataStore.empty Nat).add [⟨"n", 5⟩]).1 (mkWatch ["n"])).1
      (mkWatch ["n"])).1
    (registerPlain ((DataStore.empty Nat).add [⟨"n", 5⟩]).1 (mkWatch ["n"])).2
    (by
      intro n hn
      have hn' : n ∈ ["n"] := hn
      have hn2 : n = "n" := List.mem_singleton.mp hn'
      subst hn2
      exact ⟨2, by decide, by decide, by decide⟩)
  constructor
  · exact (h.2.2.2.1 "n" (by decide) 2 (by decide)).trans (by decide)
  · exact (h.2.2.2.2.2.2.1 "n").trans (by decide)

end FlynnStore
